import Mathlib

/-!
Verification of the content inventory crawler (`crawl_content_inventory.py`).

The crawler fetches a documentation landing page, extracts (category, title,
url) guide tuples, fetches each guide page, extracts its ordered heading
list, and shapes everything into fixed-width CSV rows.

This development shallowly embeds the script's pure transformation logic:

* strings are modelled as `List Char` (`Str`), so Python string methods
  (`split`, `strip`, `lower`, `replace`, `in`, `endswith`, `startswith`)
  become explicit list functions;
* the HTML parsing library is abstracted away: the list of `h2` sections
  with their links on the landing page, and the list of heading elements of
  a guide page, are taken as inputs (`PageSection`, `HElem`), and `urljoin`
  is passed as an opaque function;
* the HTTP layer is abstracted as an `Except` value: a fetch either raises
  a request error (`.error`) or yields the parsed heading elements (`.ok`);
* the CSV writer is modelled by the list of rows it writes (header first).

Each claim about the script is then stated and settled as a theorem over
these definitions.
-/

/-- Strings, modelled as lists of characters. -/
abbrev Str := List Char

/-- The whitespace characters recognised by Python's `str.split()` /
`str.strip()` (ASCII subset). -/
def isSpace (c : Char) : Bool :=
  c = ' ' || c = '\t' || c = '\n' || c = '\r' || c = '\x0b' || c = '\x0c'

/-- Python `str.lower()` (ASCII case folding). -/
def pyLower (s : Str) : Str := s.map Char.toLower

/-- Python `str.strip()`: remove leading and trailing whitespace. -/
def pyStrip (s : Str) : Str :=
  ((s.dropWhile isSpace).reverse.dropWhile isSpace).reverse

/-- Remove trailing whitespace only (Python `str.rstrip()`). -/
def pyRStripWs (s : Str) : Str := (s.reverse.dropWhile isSpace).reverse

/-- Helper for `pySplitWs`: accumulate the current word (reversed). -/
def wordsAux (cur : Str) : Str → List Str
  | [] => if cur.isEmpty then [] else [cur.reverse]
  | c :: cs =>
    if isSpace c then
      if cur.isEmpty then wordsAux [] cs else cur.reverse :: wordsAux [] cs
    else wordsAux (c :: cur) cs

/-- Python `str.split()` with no arguments: split on runs of whitespace,
discarding empty pieces. -/
def pySplitWs (s : Str) : List Str := wordsAux [] s

/-- Python `" ".join(text.split())`: collapse interior whitespace runs to a
single space and drop leading/trailing whitespace. -/
def collapseWs (s : Str) : Str := List.intercalate [' '] (pySplitWs s)

/-- Python `sub in s`: substring containment. -/
def pyContains (s sub : Str) : Bool :=
  (List.range (s.length + 1)).any fun i => sub.isPrefixOf (s.drop i)

/-- Fuel-driven core of `pyReplace`; the fuel is the length of the scanned
string, which suffices because every step consumes at least one character. -/
def pyReplaceAux : Nat → Str → Str → Str → Str
  | 0, s, _, _ => s
  | fuel + 1, s, pat, rep =>
    match s with
    | [] => []
    | c :: cs =>
      if !pat.isEmpty && pat.isPrefixOf (c :: cs) then
        rep ++ pyReplaceAux fuel ((c :: cs).drop pat.length) pat rep
      else c :: pyReplaceAux fuel cs pat rep

/-- Python `s.replace(pat, rep)` for a non-empty `pat`: replace each
non-overlapping occurrence, scanning left to right. -/
def pyReplace (s pat rep : Str) : Str := pyReplaceAux s.length s pat rep

/-- Python `s.rstrip("/")`: drop trailing slashes. -/
def rstripSlash (s : Str) : Str :=
  (s.reverse.dropWhile (fun c => c = '/')).reverse

/-- The fixed CSV column schema (`CSV_COLUMNS` in the script). -/
def CSV_COLUMNS : List Str :=
  ["Category".data, "Titles".data, "Chapters".data, "Sections".data,
   "Sub-sections".data, "Sub-sub-sections".data, "Details".data,
   "Notes".data, "URL".data]

/-- Headings excluded from the inventory (`SKIP_HEADINGS` in the script). -/
def SKIP_HEADINGS : List Str :=
  ["legal notice".data, "left navigation".data, "copyright".data,
   "privacy".data, "red hat legal".data, "about red hat".data,
   "learn".data, "try, buy, & sell".data, "communities".data]

/-- Boilerplate suffixes stripped from heading text, in the order the
script lists them (`BOILERPLATE_SUFFIXES`). -/
def BOILERPLATE_SUFFIXES : List Str :=
  ["Copy linkLink copied to clipboard!".data,
   "Copy linkLink copied to clipboard".data,
   "Copy link".data,
   "Link copied".data,
   "Copied!".data,
   " to clipboard!".data]

/-- One step of the boilerplate pass: `if text.endswith(suffix): text =
text[: -len(suffix)].strip()`. -/
def stripOnce (t suf : Str) : Str :=
  if suf.isSuffixOf t then pyStrip (t.take (t.length - suf.length)) else t

/-- `clean_heading_text`: collapse whitespace, then try each boilerplate
suffix once, in order. -/
def clean_heading_text (s : Str) : Str :=
  BOILERPLATE_SUFFIXES.foldl stripOnce (collapseWs s)

/-- `should_skip_heading`: `text.lower().strip() in SKIP_HEADINGS`. -/
def should_skip_heading (text : Str) : Bool :=
  SKIP_HEADINGS.contains (pyStrip (pyLower text))

/-- `to_html_single`: rewrite `/html/` to `/html-single/`. -/
def to_html_single (url : Str) : Str :=
  pyReplace url "/html/".data "/html-single/".data

/-- `hyperlink`: wrap text in a spreadsheet `HYPERLINK` formula, escaping
double quotes in the url (`%22`) and in the text (doubled quote). -/
def hyperlink (url text : Str) : Str :=
  let safe_url := pyReplace url ['"'] "%22".data
  let safe_text := pyReplace text ['"'] ['"', '"']
  "=HYPERLINK(\"".data ++ safe_url ++ "\",\"".data ++ safe_text ++ "\")".data

/-- A heading extracted from a guide page: `{level, text, anchor, url}`. -/
structure Heading where
  level : Nat
  text : Str
  anchor : Str
  url : Str
  deriving DecidableEq

/-- A guide discovered on the landing page: `{category, title, url}`, plus
the `headings` list attached by the main loop (empty until fetched). -/
structure Guide where
  category : Str
  title : Str
  url : Str
  headings : List Heading
  deriving DecidableEq

/-- `filter_guides`: keep guides whose category (resp. title) contains one
of the given substrings, case-insensitively; a `none` or empty filter list
is a no-op (Python truthiness of the default `None` / `[]`). -/
def filter_guides (guides : List Guide) (categories titles : Option (List Str)) :
    List Guide :=
  let f1 := match categories with
    | some cats =>
      if cats.isEmpty then guides
      else
        let cats_lower := cats.map pyLower
        guides.filter fun g => cats_lower.any fun c => pyContains (pyLower g.category) c
    | none => guides
  match titles with
  | some ts =>
    if ts.isEmpty then f1
    else
      let titles_lower := ts.map pyLower
      f1.filter fun g => titles_lower.any fun t => pyContains (pyLower g.title) t
  | none => f1

/-- The loop body of `filter_headings`: `include_children` is recomputed at
every `h2` and decides membership of the current heading. -/
def fhGo (chaps_lower : List Str) (inc : Bool) : List Heading → List Heading
  | [] => []
  | h :: rest =>
    let inc2 :=
      if h.level = 2 then chaps_lower.any fun c => pyContains (pyLower h.text) c
      else inc
    if inc2 then h :: fhGo chaps_lower inc2 rest else fhGo chaps_lower inc2 rest

/-- `filter_headings`: keep matching `h2` chapters and their children; a
`none` or empty chapter list is a no-op. -/
def filter_headings (headings : List Heading) (chapters : Option (List Str)) :
    List Heading :=
  match chapters with
  | none => headings
  | some chaps =>
    if chaps.isEmpty then headings
    else fhGo (chaps.map pyLower) false headings

/-- A candidate link inside a landing-page section: the `href` attribute
and the link text, as delivered by the HTML parser. -/
structure PageLink where
  href : Str
  text : Str
  deriving DecidableEq

/-- An `h2` section of the landing page: the raw heading text and the links
found in the heading's parent container. -/
structure PageSection where
  heading : Str
  links : List PageLink
  deriving DecidableEq

/-- `if not href or href.startswith(("#", "javascript:", "mailto:"))`. -/
def skipHref (href : Str) : Bool :=
  href.isEmpty || "#".data.isPrefixOf href ||
    "javascript:".data.isPrefixOf href || "mailto:".data.isPrefixOf href

/-- The inner loop of `fetch_landing_page` over the links of one section,
threading the `seen_urls` set (modelled as a list); `urljoin` is the
library's URL resolution, taken as an opaque function. -/
def processLinks (urljoin : Str → Str → Str) (base category : Str)
    (seen : List Str) : List PageLink → List Guide × List Str
  | [] => ([], seen)
  | l :: rest =>
    if skipHref l.href then processLinks urljoin base category seen rest
    else
      let absolute_url := urljoin base l.href
      if !pyContains absolute_url "/documentation/".data then
        processLinks urljoin base category seen rest
      else
        let guide_url := to_html_single absolute_url
        if guide_url ∈ seen then processLinks urljoin base category seen rest
        else
          let seen2 := guide_url :: seen
          let title := clean_heading_text l.text
          if title.isEmpty then processLinks urljoin base category seen2 rest
          else
            let r := processLinks urljoin base category seen2 rest
            (⟨category, title, guide_url, []⟩ :: r.1, r.2)

/-- The outer loop of `fetch_landing_page` over the `h2` sections. -/
def processSections (urljoin : Str → Str → Str) (base : Str)
    (seen : List Str) : List PageSection → List Guide × List Str
  | [] => ([], seen)
  | sec :: rest =>
    let category := clean_heading_text sec.heading
    if should_skip_heading category then processSections urljoin base seen rest
    else
      let r1 := processLinks urljoin base category seen sec.links
      let r2 := processSections urljoin base r1.2 rest
      (r1.1 ++ r2.1, r2.2)

/-- `fetch_landing_page`: strip trailing slashes from the base URL, then
scan every section's links with an initially empty `seen_urls` set. -/
def fetch_landing_page (urljoin : Str → Str → Str) (base_url : Str)
    (sections : List PageSection) : List Guide :=
  (processSections urljoin (rstripSlash base_url) [] sections).1

/-- A heading element (`h1`..`h6`) of a guide page as delivered by the HTML
parser: tag level, raw text, own `id`, parent's `id`, and the `id`-or-`name`
of an inner `a` element (empty string when absent). -/
structure HElem where
  level : Nat
  rawText : Str
  elemId : Str
  parentId : Str
  innerAId : Str
  deriving DecidableEq

/-- `find_anchor`: the element's own id, else the parent's id, else the
inner `a` element's id or name. -/
def find_anchor (h : HElem) : Str :=
  if !h.elemId.isEmpty then h.elemId
  else if !h.parentId.isEmpty then h.parentId
  else h.innerAId

/-- `fetch_guide_headings`: the HTTP fetch either raises a request error
(`.error`, which the script catches, logs and turns into `[]`) or yields
the page's heading elements in document order (`.ok`). -/
def fetch_guide_headings (url : Str) (response : Except Str (List HElem)) :
    List Heading :=
  match response with
  | .error _ => []
  | .ok elems =>
    elems.filterMap fun h =>
      let text := clean_heading_text h.rawText
      if text.isEmpty || should_skip_heading text then none
      else
        let anchor := find_anchor h
        some ⟨h.level, text, anchor, if anchor.isEmpty then url else url ++ '#' :: anchor⟩

/-- `[""] * len(CSV_COLUMNS)`. -/
def emptyRow : List Str := List.replicate CSV_COLUMNS.length []

/-- The title row of a guide: category cell set only when `show_category`
is truthy, title cell set to the guide hyperlink. -/
def titleRow (show_category : Str) (g : Guide) : List Str :=
  let row := emptyRow
  let row2 := if !show_category.isEmpty then row.set 0 show_category else row
  row2.set 1 (hyperlink g.url g.title)

/-- The row of one content heading: the hyperlink is written at column
`level` provided that leaves room for the Notes and URL columns. -/
def headingRow (h : Heading) : List Str :=
  if h.level < CSV_COLUMNS.length - 2 then
    emptyRow.set h.level (hyperlink h.url h.text)
  else emptyRow

/-- The guide loop of `build_csv_rows`, threading `prev_category`
(initially Python `None`). -/
def buildGo (prev : Option Str) : List Guide → List (List Str)
  | [] => []
  | g :: rest =>
    let show_category := if some g.category ≠ prev then g.category else []
    (titleRow show_category g ::
        (g.headings.filter fun h => 2 ≤ h.level).map headingRow ++ [emptyRow])
      ++ buildGo (some g.category) rest

/-- `build_csv_rows`: per guide, a title row, one row per heading of level
at least 2, and a blank separator row. -/
def build_csv_rows (guides : List Guide) : List (List Str) := buildGo none guides

/-- `write_csv`, modelled by the rows it writes: the header row followed by
the data rows. -/
def write_csv (rows : List (List Str)) : List (List Str) := CSV_COLUMNS :: rows

/-- Case-insensitive "contains at least one of the given substrings"
predicate, the matching notion used by all three filters. -/
def anyCIMatch (pats : List Str) (s : Str) : Bool :=
  pats.any fun p => pyContains (pyLower s) (pyLower p)

/-- Specification-side rendering of `filter_headings`: a heading is kept
exactly when the most recent level-2 heading at or before it (tracked in
`lastH2`, `none` while no level-2 heading has occurred yet) has text
matching one of the chapter substrings case-insensitively. -/
def specFH (chaps : List Str) (lastH2 : Option Str) : List Heading → List Heading
  | [] => []
  | h :: rest =>
    let last2 := if h.level = 2 then some h.text else lastH2
    let keep := match last2 with
      | none => false
      | some t => anyCIMatch chaps t
    if keep then h :: specFH chaps last2 rest else specFH chaps last2 rest

/-- Category strings shown in the title rows after the first guide: a
guide shows its category exactly when it differs from the immediately
preceding guide's category. -/
def shownCatsGo (prev : Str) : List Guide → List Str
  | [] => []
  | g :: rest => (if g.category ≠ prev then g.category else []) :: shownCatsGo g.category rest

/-- Category strings shown in the title rows: the first guide always shows
its category, later guides only on a category change. -/
def shownCats : List Guide → List Str
  | [] => []
  | g :: rest => g.category :: shownCatsGo g.category rest

/-- Specification-side title row: the Category cell holds exactly the
shown category string (possibly empty) and the Titles cell the guide
hyperlink. -/
def specTitleRow (shown : Str) (g : Guide) : List Str :=
  (emptyRow.set 0 shown).set 1 (hyperlink g.url g.title)

/-- The block of rows contributed by one guide: title row, one row per
heading of level at least 2, and a blank separator row. -/
def guideBlock (shown : Str) (g : Guide) : List (List Str) :=
  specTitleRow shown g ::
    (g.headings.filter fun h => 2 ≤ h.level).map headingRow ++ [emptyRow]

/-- Number of rows contributed by the guides strictly before index `i`. -/
def rowsBefore (gs : List Guide) (i : Nat) : Nat :=
  ((gs.take i).map fun g => 2 + (g.headings.filter fun h => 2 ≤ h.level).length).sum

/-- Claim-side single pass over the suffix list, spelled as an explicit
walk: each suffix is tried once, in list order. -/
def walkSuffixes : List Str → Str → Str
  | [], t => t
  | suf :: rest, t => walkSuffixes rest (stripOnce t suf)

/-- Literal reading of "collapses every run of whitespace into a single
space": each maximal whitespace run, including leading and trailing ones,
becomes one space. -/
def collapseRunsLiteral : Str → Str
  | [] => []
  | [c] => [if isSpace c then ' ' else c]
  | c :: d :: rest =>
    if isSpace c && isSpace d then collapseRunsLiteral (d :: rest)
    else (if isSpace c then ' ' else c) :: collapseRunsLiteral (d :: rest)

/-- Literal reading of "removing a suffix and trailing whitespace": strip
the suffix, then trailing whitespace. -/
def stripOnceLiteral (t suf : Str) : Str :=
  if suf.isSuffixOf t then pyRStripWs (t.take (t.length - suf.length)) else t

/-- The suffix walk under the literal reading. -/
def walkSuffixesLiteral : List Str → Str → Str
  | [], t => t
  | suf :: rest, t => walkSuffixesLiteral rest (stripOnceLiteral t suf)

/-- The heading cleanup exactly as the claim words it: collapse every
whitespace run to a single space, then walk the suffix list once in order,
removing a matching suffix and trailing whitespace. -/
def cleanSpecLiteral (s : Str) : Str :=
  walkSuffixesLiteral BOILERPLATE_SUFFIXES (collapseRunsLiteral s)

lemma fhGo_sublist (cl : List Str) (hs : List Heading) :
    ∀ inc, List.Sublist (fhGo cl inc hs) hs := by
  induction hs with
  | nil => intro inc; simp [fhGo]
  | cons h rest ih =>
    intro inc
    simp only [fhGo]
    generalize (if h.level = 2 then (cl.any fun c => pyContains (pyLower h.text) c) else inc) = inc2
    split
    · exact List.Sublist.cons₂ h (ih _)
    · exact List.Sublist.cons h (ih _)

lemma filter_guides_sublist (gs : List Guide) (categories titles : Option (List Str)) :
    List.Sublist (filter_guides gs categories titles) gs := by
  rcases categories with _ | cats <;> rcases titles with _ | ts <;>
      simp only [filter_guides] <;>
    first
      | exact List.Sublist.refl gs
      | (split_ifs <;>
          first
            | exact List.Sublist.refl gs
            | exact List.filter_sublist gs
            | exact (List.filter_sublist _).trans (List.filter_sublist gs))

/-- C10: `filter_guides` and `filter_headings` each return a subsequence
of their input — every output element occurs in the input, in the same
relative order, with nothing duplicated, modified or invented — and when
the filter argument is `None` or the empty list they return the input list
unchanged. -/
theorem filters_sublist_identity :
    (∀ (gs : List Guide) (categories titles : Option (List Str)),
        List.Sublist (filter_guides gs categories titles) gs) ∧
    (∀ (hs : List Heading) (chapters : Option (List Str)),
        List.Sublist (filter_headings hs chapters) hs) ∧
    (∀ gs : List Guide,
        filter_guides gs none none = gs ∧ filter_guides gs (some []) none = gs ∧
        filter_guides gs none (some []) = gs ∧
        filter_guides gs (some []) (some []) = gs) ∧
    (∀ hs : List Heading,
        filter_headings hs none = hs ∧ filter_headings hs (some []) = hs) := by
  refine ⟨filter_guides_sublist, ?_, fun gs => ⟨rfl, rfl, rfl, rfl⟩,
    fun hs => ⟨rfl, rfl⟩⟩
  intro hs chapters
  rcases chapters with _ | chaps
  · exact List.Sublist.refl hs
  · simp only [filter_headings]
    split_ifs
    · exact List.Sublist.refl hs
    · exact fhGo_sublist _ hs false

lemma anyCIMatch_map_lower (pats : List Str) (s : Str) :
    ((pats.map pyLower).any fun c => pyContains (pyLower s) c) = anyCIMatch pats s := by
  simp only [anyCIMatch, List.any_map]
  rfl

lemma filter_filter_and (l : List Guide) (p q : Guide → Bool) :
    (l.filter p).filter q = l.filter fun a => p a && q a := by
  induction l with
  | nil => rfl
  | cons g rest ih =>
    by_cases hp : p g = true <;> by_cases hq : q g = true <;>
      simp [List.filter, hp, hq, ih]

/-- C4: `filter_guides` keeps exactly the guides, in order, whose category
(resp. title) contains at least one of the supplied substrings
case-insensitively, filtering by category when a non-empty category list is
supplied and by title when a non-empty title list is supplied; with both
filters absent it returns the input unchanged. -/
theorem filter_guides_substring_spec (gs : List Guide) :
    filter_guides gs none none = gs ∧
    (∀ cats : List Str, cats ≠ [] →
        filter_guides gs (some cats) none =
          gs.filter fun g => anyCIMatch cats g.category) ∧
    (∀ ts : List Str, ts ≠ [] →
        filter_guides gs none (some ts) =
          gs.filter fun g => anyCIMatch ts g.title) ∧
    (∀ (cats ts : List Str), cats ≠ [] → ts ≠ [] →
        filter_guides gs (some cats) (some ts) =
          gs.filter fun g => anyCIMatch cats g.category && anyCIMatch ts g.title) := by
  refine ⟨rfl, ?_, ?_, ?_⟩
  · rintro (_ | ⟨c0, cs⟩) hne
    · exact absurd rfl hne
    · simp only [filter_guides, List.isEmpty_cons, Bool.false_eq_true, if_false,
        anyCIMatch_map_lower]
  · rintro (_ | ⟨t0, ts⟩) hne
    · exact absurd rfl hne
    · simp only [filter_guides, List.isEmpty_cons, Bool.false_eq_true, if_false,
        anyCIMatch_map_lower]
  · rintro (_ | ⟨c0, cs⟩) (_ | ⟨t0, ts⟩) hc ht
    · exact absurd rfl hc
    · exact absurd rfl hc
    · exact absurd rfl ht
    · simp only [filter_guides, List.isEmpty_cons, Bool.false_eq_true, if_false,
        anyCIMatch_map_lower]
      exact filter_filter_and gs _ _

def gW1 : Guide := ⟨"Operations".data, "Install guide".data, "u1".data, []⟩

def gW2 : Guide := ⟨"Security".data, "Harden".data, "u2".data, []⟩

theorem filter_guides_substring_spec_witness :
    (["oper".data] ≠ ([] : List Str)) ∧ (["install".data] ≠ ([] : List Str)) ∧
    filter_guides [gW1, gW2] (some ["oper".data]) (some ["install".data]) =
      [gW1, gW2].filter fun g =>
        anyCIMatch ["oper".data] g.category && anyCIMatch ["install".data] g.title :=
  ⟨by decide, by decide,
    (filter_guides_substring_spec [gW1, gW2]).2.2.2 _ _ (by decide) (by decide)⟩

lemma fhGo_eq_specFH (chaps : List Str) (hs : List Heading) :
    ∀ (inc : Bool) (last : Option Str),
      inc = (match last with | none => false | some t => anyCIMatch chaps t) →
      fhGo (chaps.map pyLower) inc hs = specFH chaps last hs := by
  induction hs with
  | nil => intro inc last _; rfl
  | cons h rest ih =>
    intro inc last hinv
    simp only [fhGo, specFH]
    by_cases hl : h.level = 2
    · rw [if_pos hl, if_pos hl, anyCIMatch_map_lower]
      have hrec := ih (anyCIMatch chaps h.text) (some h.text) rfl
      cases hA : anyCIMatch chaps h.text <;> simp [hA] at hrec ⊢ <;> exact hrec
    · rw [if_neg hl, if_neg hl, ← hinv]
      have hrec := ih inc last hinv
      cases hI : inc <;> simp [hI] at hrec ⊢ <;> exact hrec

lemma specFH_no_h2 (chaps : List Str) (hs : List Heading)
    (hno : ∀ h ∈ hs, h.level ≠ 2) : specFH chaps none hs = [] := by
  induction hs with
  | nil => rfl
  | cons h rest ih =>
    have hl : h.level ≠ 2 := hno h (List.mem_cons_self h rest)
    simp only [specFH, if_neg hl]
    exact ih fun h' hh' => hno h' (List.mem_cons_of_mem h hh')

/-- C3: with a non-empty chapter list, `filter_headings` keeps a heading
exactly when the most recent level-2 heading at or before it — some h2
with no other h2 in between — matches one of the chapter substrings
case-insensitively (`specFH` tracks exactly that h2, starting from `none`),
so matching h2 chapters and all headings up to the next h2 are kept; in
particular every heading before the first level-2 heading is excluded. -/
theorem filter_headings_latest_h2 (hs : List Heading) (chaps : List Str)
    (hne : chaps ≠ []) :
    filter_headings hs (some chaps) = specFH chaps none hs ∧
    ((∀ h ∈ hs, h.level ≠ 2) → filter_headings hs (some chaps) = []) := by
  have hempty : chaps.isEmpty = false := by
    cases chaps with
    | nil => exact absurd rfl hne
    | cons c cs => rfl
  have main : filter_headings hs (some chaps) = specFH chaps none hs := by
    simp only [filter_headings, hempty, Bool.false_eq_true, if_false]
    exact fhGo_eq_specFH chaps hs false none rfl
  exact ⟨main, fun hno => main.trans (specFH_no_h2 chaps hs hno)⟩

def hsW : List Heading :=
  [⟨1, "T".data, [], "u".data⟩, ⟨2, "Install".data, [], "u".data⟩,
   ⟨3, "Step".data, [], "u".data⟩, ⟨2, "Other".data, [], "u".data⟩,
   ⟨4, "Deep".data, [], "u".data⟩]

theorem filter_headings_latest_h2_witness :
    (["inst".data] ≠ ([] : List Str)) ∧
    filter_headings hsW (some ["inst".data]) = specFH ["inst".data] none hsW :=
  ⟨by decide, (filter_headings_latest_h2 hsW ["inst".data] (by decide)).1⟩

lemma foldl_stripOnce_eq_walk (sufs : List Str) :
    ∀ t, sufs.foldl stripOnce t = walkSuffixes sufs t := by
  induction sufs with
  | nil => intro t; rfl
  | cons s rest ih =>
    intro t
    simp only [List.foldl_cons, walkSuffixes]
    exact ih _

/-- C6 counterexample: the cleanup does not collapse a leading whitespace
run into a single space — it removes it.  On the input `"\tFoo"` the claimed
pipeline (`cleanSpecLiteral`) yields `" Foo"` while `clean_heading_text`
yields `"Foo"`. -/
theorem clean_heading_text_collapse_counterexample :
    cleanSpecLiteral ('\t' :: "Foo".data) ≠ clean_heading_text ('\t' :: "Foo".data) ∧
    clean_heading_text ('\t' :: "Foo".data) = "Foo".data ∧
    cleanSpecLiteral ('\t' :: "Foo".data) = ' ' :: "Foo".data := by decide


section ProcessSteps

variable {uj : Str → Str → Str} {base cat : Str} {seen : List Str}
variable {l : PageLink} {rest : List PageLink}

lemma processLinks_cons_skip (h1 : skipHref l.href = true) :
    processLinks uj base cat seen (l :: rest) = processLinks uj base cat seen rest := by
  simp only [processLinks, h1, if_true]

lemma processLinks_cons_nodoc (h1 : skipHref l.href = false)
    (h2 : pyContains (uj base l.href) "/documentation/".data = false) :
    processLinks uj base cat seen (l :: rest) = processLinks uj base cat seen rest := by
  simp only [processLinks, h1, h2, Bool.false_eq_true, if_false, Bool.not_false, if_true]

lemma processLinks_cons_seen (h1 : skipHref l.href = false)
    (h2 : pyContains (uj base l.href) "/documentation/".data = true)
    (h3 : to_html_single (uj base l.href) ∈ seen) :
    processLinks uj base cat seen (l :: rest) = processLinks uj base cat seen rest := by
  simp only [processLinks, h1, h2, Bool.false_eq_true, if_false, Bool.not_true, if_pos h3]

lemma processLinks_cons_notitle (h1 : skipHref l.href = false)
    (h2 : pyContains (uj base l.href) "/documentation/".data = true)
    (h3 : to_html_single (uj base l.href) ∉ seen)
    (h4 : (clean_heading_text l.text).isEmpty = true) :
    processLinks uj base cat seen (l :: rest) =
      processLinks uj base cat (to_html_single (uj base l.href) :: seen) rest := by
  simp only [processLinks, h1, h2, h4, Bool.false_eq_true, if_false, Bool.not_true,
    if_neg h3, if_true]

lemma processLinks_cons_emit (h1 : skipHref l.href = false)
    (h2 : pyContains (uj base l.href) "/documentation/".data = true)
    (h3 : to_html_single (uj base l.href) ∉ seen)
    (h4 : (clean_heading_text l.text).isEmpty = false) :
    processLinks uj base cat seen (l :: rest) =
      (⟨cat, clean_heading_text l.text, to_html_single (uj base l.href), []⟩ ::
        (processLinks uj base cat (to_html_single (uj base l.href) :: seen) rest).1,
       (processLinks uj base cat (to_html_single (uj base l.href) :: seen) rest).2) := by
  simp only [processLinks, h1, h2, h4, Bool.false_eq_true, if_false, Bool.not_true,
    if_neg h3]

end ProcessSteps

section SectionSteps

variable {uj : Str → Str → Str} {base : Str} {seen : List Str}
variable {sec : PageSection} {rest : List PageSection}

lemma processSections_cons_skip
    (h1 : should_skip_heading (clean_heading_text sec.heading) = true) :
    processSections uj base seen (sec :: rest) = processSections uj base seen rest := by
  simp only [processSections, h1, if_true]

lemma processSections_cons_go
    (h1 : should_skip_heading (clean_heading_text sec.heading) = false) :
    processSections uj base seen (sec :: rest) =
      ((processLinks uj base (clean_heading_text sec.heading) seen sec.links).1 ++
          (processSections uj base
            (processLinks uj base (clean_heading_text sec.heading) seen sec.links).2
            rest).1,
       (processSections uj base
          (processLinks uj base (clean_heading_text sec.heading) seen sec.links).2
          rest).2) := by
  simp only [processSections, h1, Bool.false_eq_true, if_false]

end SectionSteps

lemma processLinks_prov (uj : Str → Str → Str) (base cat : Str) :
    ∀ (links : List PageLink) (seen : List Str) (g : Guide),
      g ∈ (processLinks uj base cat seen links).1 →
      ∃ l ∈ links, g.url = to_html_single (uj base l.href) ∧
        g.category = cat ∧ g.title = clean_heading_text l.text := by
  intro links
  induction links with
  | nil =>
    intro seen g hg
    simp [processLinks] at hg
  | cons l rest ih =>
    intro seen g hg
    have step : ∀ seen', g ∈ (processLinks uj base cat seen' rest).1 →
        ∃ l' ∈ l :: rest, g.url = to_html_single (uj base l'.href) ∧
          g.category = cat ∧ g.title = clean_heading_text l'.text := by
      intro seen' hmem
      obtain ⟨l', hl', hrest⟩ := ih seen' g hmem
      exact ⟨l', List.mem_cons_of_mem l hl', hrest⟩
    cases h1 : skipHref l.href
    · cases h2 : pyContains (uj base l.href) "/documentation/".data
      · rw [processLinks_cons_nodoc h1 h2] at hg
        exact step seen hg
      · by_cases h3 : to_html_single (uj base l.href) ∈ seen
        · rw [processLinks_cons_seen h1 h2 h3] at hg
          exact step seen hg
        · cases h4 : (clean_heading_text l.text).isEmpty
          · rw [processLinks_cons_emit h1 h2 h3 h4] at hg
            rcases List.mem_cons.mp hg with hg | hg
            · subst hg
              exact ⟨l, List.mem_cons_self l rest, by refine ⟨?_, ?_, ?_⟩ <;> dsimp only⟩
            · exact step _ hg
          · rw [processLinks_cons_notitle h1 h2 h3 h4] at hg
            exact step _ hg
    · rw [processLinks_cons_skip h1] at hg
      exact step seen hg

lemma processSections_prov (uj : Str → Str → Str) (base : Str) :
    ∀ (secs : List PageSection) (seen : List Str) (g : Guide),
      g ∈ (processSections uj base seen secs).1 →
      ∃ sec ∈ secs, ∃ l ∈ sec.links,
        g.url = to_html_single (uj base l.href) ∧
        g.category = clean_heading_text sec.heading ∧
        g.title = clean_heading_text l.text := by
  intro secs
  induction secs with
  | nil =>
    intro seen g hg
    simp [processSections] at hg
  | cons sec rest ih =>
    intro seen g hg
    cases h1 : should_skip_heading (clean_heading_text sec.heading)
    · rw [processSections_cons_go h1] at hg
      rcases List.mem_append.mp hg with hg | hg
      · obtain ⟨l, hl, hurl, hcat, htitle⟩ :=
          processLinks_prov uj base _ sec.links seen g hg
        exact ⟨sec, List.mem_cons_self sec rest, l, hl, hurl, hcat, htitle⟩
      · obtain ⟨sec', hsec', rest'⟩ := ih _ g hg
        exact ⟨sec', List.mem_cons_of_mem sec hsec', rest'⟩
    · rw [processSections_cons_skip h1] at hg
      obtain ⟨sec', hsec', rest'⟩ := ih seen g hg
      exact ⟨sec', List.mem_cons_of_mem sec hsec', rest'⟩

lemma processLinks_inv (uj : Str → Str → Str) (base cat : Str) :
    ∀ (links : List PageLink) (seen : List Str),
      ((processLinks uj base cat seen links).1.map Guide.url).Nodup ∧
      (∀ u ∈ (processLinks uj base cat seen links).1.map Guide.url,
          u ∉ seen ∧ u ∈ (processLinks uj base cat seen links).2) ∧
      (∀ s ∈ seen, s ∈ (processLinks uj base cat seen links).2) := by
  intro links
  induction links with
  | nil =>
    intro seen
    refine ⟨List.nodup_nil, ?_, fun s hs => hs⟩
    intro u hu
    simp [processLinks] at hu
  | cons l rest ih =>
    intro seen
    cases h1 : skipHref l.href
    · cases h2 : pyContains (uj base l.href) "/documentation/".data
      · rw [processLinks_cons_nodoc h1 h2]
        exact ih seen
      · by_cases h3 : to_html_single (uj base l.href) ∈ seen
        · rw [processLinks_cons_seen h1 h2 h3]
          exact ih seen
        · cases h4 : (clean_heading_text l.text).isEmpty
          · rw [processLinks_cons_emit h1 h2 h3 h4]
            obtain ⟨hn, hmem, hsub⟩ := ih (to_html_single (uj base l.href) :: seen)
            refine ⟨?_, ?_, ?_⟩
            · rw [List.map_cons]
              refine List.nodup_cons.mpr ⟨?_, hn⟩
              intro hin
              exact (hmem _ hin).1 (List.mem_cons_self _ _)
            · intro u hu
              rw [List.map_cons] at hu
              rcases List.mem_cons.mp hu with hu | hu
              · rw [hu]
                exact ⟨h3, hsub _ (List.mem_cons_self _ _)⟩
              · obtain ⟨hunot, huin⟩ := hmem u hu
                exact ⟨fun hs => hunot (List.mem_cons_of_mem _ hs), huin⟩
            · intro s hs
              exact hsub s (List.mem_cons_of_mem _ hs)
          · rw [processLinks_cons_notitle h1 h2 h3 h4]
            obtain ⟨hn, hmem, hsub⟩ := ih (to_html_single (uj base l.href) :: seen)
            refine ⟨hn, ?_, ?_⟩
            · intro u hu
              obtain ⟨hunot, huin⟩ := hmem u hu
              exact ⟨fun hs => hunot (List.mem_cons_of_mem _ hs), huin⟩
            · intro s hs
              exact hsub s (List.mem_cons_of_mem _ hs)
    · rw [processLinks_cons_skip h1]
      exact ih seen

lemma processSections_inv (uj : Str → Str → Str) (base : Str) :
    ∀ (secs : List PageSection) (seen : List Str),
      ((processSections uj base seen secs).1.map Guide.url).Nodup ∧
      (∀ u ∈ (processSections uj base seen secs).1.map Guide.url,
          u ∉ seen ∧ u ∈ (processSections uj base seen secs).2) ∧
      (∀ s ∈ seen, s ∈ (processSections uj base seen secs).2) := by
  intro secs
  induction secs with
  | nil =>
    intro seen
    refine ⟨List.nodup_nil, ?_, fun s hs => hs⟩
    intro u hu
    simp [processSections] at hu
  | cons sec rest ih =>
    intro seen
    cases h1 : should_skip_heading (clean_heading_text sec.heading)
    · rw [processSections_cons_go h1]
      obtain ⟨hn1, hmem1, hsub1⟩ :=
        processLinks_inv uj base (clean_heading_text sec.heading) sec.links seen
      obtain ⟨hn2, hmem2, hsub2⟩ :=
        ih (processLinks uj base (clean_heading_text sec.heading) seen sec.links).2
      refine ⟨?_, ?_, ?_⟩
      · rw [List.map_append, List.nodup_append]
        refine ⟨hn1, hn2, ?_⟩
        intro u hu1 hu2
        exact (hmem2 u hu2).1 ((hmem1 u hu1).2)
      · intro u hu
        rw [List.map_append] at hu
        rcases List.mem_append.mp hu with hu | hu
        · obtain ⟨hnot, hin⟩ := hmem1 u hu
          exact ⟨hnot, hsub2 u hin⟩
        · obtain ⟨hnot2, hin2⟩ := hmem2 u hu
          exact ⟨fun hs => hnot2 (hsub1 u hs), hin2⟩
      · intro s hs
        exact hsub2 s (hsub1 s hs)
    · rw [processSections_cons_skip h1]
      exact ih seen

/-- C5: the guide list produced from a landing page has pairwise distinct
`url` fields: each candidate link's absolute URL is rewritten by
`to_html_single` (replacing `/html/` with `/html-single/`), a guide whose
rewritten URL was already emitted is dropped, and every emitted guide's
URL is the rewritten absolute URL of one of the page's links — so two
distinct hrefs rewriting to the same URL yield a single entry. -/
theorem fetch_landing_page_urls_nodup (uj : Str → Str → Str) (base_url : Str)
    (sections : List PageSection) :
    ((fetch_landing_page uj base_url sections).map Guide.url).Nodup ∧
    ∀ g ∈ fetch_landing_page uj base_url sections,
      ∃ sec ∈ sections, ∃ l ∈ sec.links,
        g.url = to_html_single (uj (rstripSlash base_url) l.href) := by
  constructor
  · exact (processSections_inv uj (rstripSlash base_url) sections []).1
  · intro g hg
    obtain ⟨sec, hsec, l, hl, hurl, -, -⟩ :=
      processSections_prov uj (rstripSlash base_url) sections [] g hg
    exact ⟨sec, hsec, l, hl, hurl⟩

def ujW (base href : Str) : Str := base ++ href

def secW : PageSection :=
  ⟨"Guides".data,
   [⟨"/documentation/x/html/a".data, "Guide A".data⟩,
    ⟨"/documentation/x/html-single/a".data, "Guide B".data⟩]⟩

def gW3 : Guide :=
  ⟨"Guides".data, "Guide A".data, "b/documentation/x/html-single/a".data, []⟩

theorem fetch_landing_page_urls_nodup_witness :
    gW3 ∈ fetch_landing_page ujW "b".data [secW] ∧
    ((fetch_landing_page ujW "b".data [secW]).map Guide.url).Nodup ∧
    ∃ sec ∈ [secW], ∃ l ∈ sec.links,
      gW3.url = to_html_single (ujW (rstripSlash "b".data) l.href) :=
  ⟨by decide, (fetch_landing_page_urls_nodup ujW "b".data [secW]).1,
    (fetch_landing_page_urls_nodup ujW "b".data [secW]).2 gW3 (by decide)⟩

/-- C6 (amended): `clean_heading_text` first normalises whitespace by
splitting on whitespace runs and rejoining with single spaces — collapsing
every interior run to one space and removing leading and trailing
whitespace — then walks the fixed boilerplate suffix list once in order,
removing a suffix (and stripping surrounding whitespace) whenever the
current text ends with it, each suffix stripped at most once; this cleanup
is the one applied to every extracted heading text, guide title and
category. -/
theorem clean_heading_text_single_pass :
    (∀ s : Str, clean_heading_text s = walkSuffixes BOILERPLATE_SUFFIXES (collapseWs s)) ∧
    (∀ (url : Str) (elems : List HElem) (h : Heading),
        h ∈ fetch_guide_headings url (.ok elems) →
        ∃ e ∈ elems, h.text = clean_heading_text e.rawText) ∧
    (∀ (uj : Str → Str → Str) (base_url : Str) (sections : List PageSection),
        ∀ g ∈ fetch_landing_page uj base_url sections,
          ∃ sec ∈ sections, ∃ l ∈ sec.links,
            g.title = clean_heading_text l.text ∧
            g.category = clean_heading_text sec.heading) := by
  refine ⟨fun s => foldl_stripOnce_eq_walk _ _, ?_, ?_⟩
  · intro url elems h hmem
    simp only [fetch_guide_headings] at hmem
    obtain ⟨e, he, hfe⟩ := List.mem_filterMap.mp hmem
    refine ⟨e, he, ?_⟩
    by_cases hc : ((clean_heading_text e.rawText).isEmpty ||
        should_skip_heading (clean_heading_text e.rawText)) = true
    · rw [if_pos hc] at hfe
      exact absurd hfe (by simp)
    · rw [if_neg hc] at hfe
      have hinj := Option.some.inj hfe
      rw [← hinj]
  · intro uj base_url sections g hg
    obtain ⟨sec, hsec, l, hl, -, hcat, htitle⟩ :=
      processSections_prov uj (rstripSlash base_url) sections [] g hg
    exact ⟨sec, hsec, l, hl, htitle, hcat⟩

def eW : HElem := ⟨2, "Ch 1Copy link".data, "a1".data, [], []⟩

def hW : Heading := ⟨2, "Ch 1".data, "a1".data, "U#a1".data⟩

theorem clean_heading_text_single_pass_witness :
    hW ∈ fetch_guide_headings "U".data (Except.ok [eW]) ∧
    ∃ e ∈ [eW], hW.text = clean_heading_text e.rawText :=
  ⟨by decide, clean_heading_text_single_pass.2.1 "U".data [eW] hW (by decide)⟩

lemma titleRow_eq_spec (s : Str) (g : Guide) : titleRow s g = specTitleRow s g := by
  rcases s with _ | ⟨c, cs⟩ <;> rfl

lemma buildGo_some_eq_blocks (gs : List Guide) :
    ∀ c : Str, buildGo (some c) gs =
      ((shownCatsGo c gs).zip gs).flatMap fun p => guideBlock p.1 p.2 := by
  induction gs with
  | nil => intro c; rfl
  | cons g rest ih =>
    intro c
    simp only [buildGo, shownCatsGo, List.zip_cons_cons, List.flatMap_cons, guideBlock,
      titleRow_eq_spec, ne_eq, Option.some.injEq, ih, List.cons_append, List.append_assoc]

lemma build_csv_rows_eq_blocks (gs : List Guide) :
    build_csv_rows gs =
      ((shownCats gs).zip gs).flatMap fun p => guideBlock p.1 p.2 := by
  cases gs with
  | nil => rfl
  | cons g rest =>
    show buildGo none (g :: rest) = _
    simp only [buildGo, shownCats, List.zip_cons_cons, List.flatMap_cons, guideBlock,
      titleRow_eq_spec, buildGo_some_eq_blocks, List.cons_append, List.append_assoc,
      if_pos (Option.some_ne_none g.category)]

lemma hyperlink_ne_nil (u t : Str) : hyperlink u t ≠ [] := by
  intro h
  have hlen := congrArg List.length h
  simp [hyperlink] at hlen

/-- C1: `build_csv_rows` maps each guide to its title row followed by one
row per heading of level at least 2 (level-1 headings produce no heading
row; the title row carries the landing-page title), and each such heading
row has its single non-empty cell at the column fixed by the heading's
level — level 2 in column 2 (Chapters), 3 in column 3 (Sections), 4 in
column 4 (Sub-sections), 5 in column 5 (Sub-sub-sections), 6 in column 6
(Details) — the cell being the HYPERLINK formula of the heading's url and
text. -/
theorem build_csv_rows_level_to_column (gs : List Guide) :
    (build_csv_rows gs =
      ((shownCats gs).zip gs).flatMap fun p =>
        specTitleRow p.1 p.2 ::
          (p.2.headings.filter fun h => 2 ≤ h.level).map headingRow ++ [emptyRow]) ∧
    (∀ h : Heading, 2 ≤ h.level → h.level ≤ 6 →
        (headingRow h)[h.level]? = some (hyperlink h.url h.text) ∧
        (∀ j, j < 9 → j ≠ h.level → (headingRow h)[j]? = some ([] : Str)) ∧
        hyperlink h.url h.text ≠ []) ∧
    CSV_COLUMNS[2]? = some "Chapters".data ∧
    CSV_COLUMNS[3]? = some "Sections".data ∧
    CSV_COLUMNS[4]? = some "Sub-sections".data ∧
    CSV_COLUMNS[5]? = some "Sub-sub-sections".data ∧
    CSV_COLUMNS[6]? = some "Details".data := by
  refine ⟨?_, ?_, rfl, rfl, rfl, rfl, rfl⟩
  · rw [build_csv_rows_eq_blocks]
    simp only [guideBlock]
  · intro h h2 h6
    rcases h with ⟨l, t, a, u⟩
    dsimp only at h2 h6 ⊢
    refine ⟨?_, ?_, hyperlink_ne_nil u t⟩
    · interval_cases l <;> rfl
    · intro j hj hne
      interval_cases l <;> interval_cases j <;>
        first
          | exact absurd rfl hne
          | rfl

def hW2 : Heading := ⟨3, "Sec".data, [], "u".data⟩

theorem build_csv_rows_level_to_column_witness :
    (2 ≤ hW2.level ∧ hW2.level ≤ 6) ∧
    (headingRow hW2)[hW2.level]? = some (hyperlink hW2.url hW2.text) :=
  ⟨⟨by decide, by decide⟩,
    ((build_csv_rows_level_to_column []).2.1 hW2 (by decide) (by decide)).1⟩

/-- C7: a request error during a guide fetch is caught and turned into the
empty heading list (no exception propagates, so the crawl continues), and a
guide with an empty heading list contributes exactly its title row and the
blank separator row to the CSV. -/
theorem fetch_error_title_and_separator_only :
    (∀ url err : Str, fetch_guide_headings url (.error err) = []) ∧
    (∀ (shown : Str) (g : Guide), g.headings = [] →
        guideBlock shown g = [specTitleRow shown g, emptyRow]) ∧
    (∀ gs : List Guide,
        build_csv_rows gs =
          ((shownCats gs).zip gs).flatMap fun p => guideBlock p.1 p.2) := by
  refine ⟨fun url err => rfl, ?_, build_csv_rows_eq_blocks⟩
  intro shown g hempty
  simp [guideBlock, hempty]

def gW4 : Guide := ⟨"Cat".data, "G".data, "u".data, []⟩

theorem fetch_error_title_and_separator_only_witness :
    fetch_guide_headings "u".data (Except.error "timeout".data) = [] ∧
    gW4.headings = [] ∧
    guideBlock "Cat".data gW4 = [specTitleRow "Cat".data gW4, emptyRow] :=
  ⟨fetch_error_title_and_separator_only.1 "u".data "timeout".data, rfl,
    fetch_error_title_and_separator_only.2.1 "Cat".data gW4 rfl⟩

lemma buildGo_row_cases :
    ∀ (prev : Option Str) (gs : List Guide) (row : List Str), row ∈ buildGo prev gs →
      (∃ s g, row = titleRow s g) ∨ (∃ h, row = headingRow h) ∨ row = emptyRow := by
  intro prev gs
  induction gs generalizing prev with
  | nil =>
    intro row hrow
    simp [buildGo] at hrow
  | cons g rest ih =>
    intro row hrow
    simp only [buildGo] at hrow
    rcases List.mem_append.mp hrow with hrow | hrow
    · rcases List.mem_cons.mp hrow with hrow | hrow
      · exact Or.inl ⟨_, g, hrow⟩
      · rcases List.mem_append.mp hrow with hrow | hrow
        · obtain ⟨hh, -, heq⟩ := List.mem_map.mp hrow
          exact Or.inr (Or.inl ⟨hh, heq.symm⟩)
        · exact Or.inr (Or.inr (List.mem_singleton.mp hrow))
    · exact ih _ row hrow

lemma titleRow_length (s : Str) (g : Guide) : (titleRow s g).length = 9 := by
  rcases s with _ | ⟨c, cs⟩ <;> rfl

lemma headingRow_length (h : Heading) : (headingRow h).length = 9 := by
  unfold headingRow
  split
  · simp [List.length_set, emptyRow, CSV_COLUMNS]
  · rfl

lemma buildGo_length :
    ∀ (prev : Option Str) (gs : List Guide), (buildGo prev gs).length =
      ((gs.map fun g => 2 + (g.headings.filter fun h => 2 ≤ h.level).length)).sum := by
  intro prev gs
  induction gs generalizing prev with
  | nil => rfl
  | cons g rest ih =>
    simp only [buildGo, List.length_append, List.length_cons, List.length_map,
      List.length_singleton, List.length_nil, List.map_cons, List.sum_cons, ih]
    omega

/-- C8: the CSV has fixed width and shape — the first written row is the
nine-column header (Category, Titles, Chapters, Sections, Sub-sections,
Sub-sub-sections, Details, Notes, URL), every data row produced by
`build_csv_rows` has exactly nine cells, per guide the rows are exactly one
title row, then one row per kept heading of level at least 2 in order, then
one all-empty separator row (the concatenation of per-guide blocks in the
last conjunct), and the data row count is the sum over guides of 2 (title
row plus separator) plus the number of headings of level at least 2. -/
theorem csv_fixed_shape (gs : List Guide) :
    (write_csv (build_csv_rows gs)).head? = some CSV_COLUMNS ∧
    CSV_COLUMNS.length = 9 ∧
    CSV_COLUMNS = ["Category".data, "Titles".data, "Chapters".data, "Sections".data,
      "Sub-sections".data, "Sub-sub-sections".data, "Details".data,
      "Notes".data, "URL".data] ∧
    (∀ row ∈ build_csv_rows gs, row.length = 9) ∧
    (build_csv_rows gs).length =
      ((gs.map fun g => 2 + (g.headings.filter fun h => 2 ≤ h.level).length)).sum ∧
    build_csv_rows gs =
      ((shownCats gs).zip gs).flatMap fun p =>
        specTitleRow p.1 p.2 ::
          (p.2.headings.filter fun h => 2 ≤ h.level).map headingRow ++ [emptyRow] := by
  refine ⟨rfl, rfl, rfl, ?_, buildGo_length none gs, ?_⟩
  · intro row hrow
    rcases buildGo_row_cases none gs row hrow with ⟨s, g, rfl⟩ | ⟨h, rfl⟩ | rfl
    · exact titleRow_length s g
    · exact headingRow_length h
    · rfl
  · rw [build_csv_rows_eq_blocks]
    simp only [guideBlock]

def gW5 : Guide := ⟨"Cat".data, "G".data, "u".data, [⟨2, "Ch".data, [], "u".data⟩]⟩

theorem csv_fixed_shape_witness :
    emptyRow ∈ build_csv_rows [gW5] ∧ emptyRow.length = 9 :=
  ⟨by decide, (csv_fixed_shape [gW5]).2.2.2.1 emptyRow (by decide)⟩

lemma titleRow_cols78 (s : Str) (g : Guide) :
    (titleRow s g)[7]? = some ([] : Str) ∧ (titleRow s g)[8]? = some ([] : Str) := by
  rcases s with _ | ⟨c, cs⟩ <;> exact ⟨rfl, rfl⟩

lemma headingRow_cols78 (h : Heading) :
    (headingRow h)[7]? = some ([] : Str) ∧ (headingRow h)[8]? = some ([] : Str) := by
  rcases h with ⟨l, t, a, u⟩
  unfold headingRow
  split
  · rename_i hl
    dsimp only at hl
    have hl7 : l < 7 := by
      simp [CSV_COLUMNS] at hl
      omega
    interval_cases l <;> exact ⟨rfl, rfl⟩
  · exact ⟨rfl, rfl⟩

/-- C9: in every data row produced by `build_csv_rows` the Notes column
(index 7) and the URL column (index 8) hold the empty string: heading
cells are only written at column indices below 7, title rows write only
columns 0 and 1, and separator rows are entirely empty. -/
theorem notes_url_columns_empty (gs : List Guide) :
    ∀ row ∈ build_csv_rows gs,
      row[7]? = some ([] : Str) ∧ row[8]? = some ([] : Str) := by
  intro row hrow
  rcases buildGo_row_cases none gs row hrow with ⟨s, g, rfl⟩ | ⟨h, rfl⟩ | rfl
  · exact titleRow_cols78 s g
  · exact headingRow_cols78 h
  · exact ⟨rfl, rfl⟩

theorem notes_url_columns_empty_witness :
    emptyRow ∈ build_csv_rows [gW4] ∧
    emptyRow[7]? = some ([] : Str) ∧ emptyRow[8]? = some ([] : Str) :=
  ⟨by decide, notes_url_columns_empty [gW4] emptyRow (by decide)⟩

lemma titleRow_cell0 (s : Str) (g : Guide) : (titleRow s g).getD 0 [] = s := by
  rcases s with _ | ⟨c, cs⟩ <;> rfl

lemma rowsBefore_zero (gs : List Guide) : rowsBefore gs 0 = 0 := rfl

lemma rowsBefore_succ (g : Guide) (rest : List Guide) (j : Nat) :
    rowsBefore (g :: rest) (j + 1) =
      (2 + (g.headings.filter fun h => 2 ≤ h.level).length) + rowsBefore rest j := by
  simp [rowsBefore, List.take_succ_cons, List.map_cons, List.sum_cons]

lemma buildGo_title_cell (gs : List Guide) :
    ∀ (prev : Option Str) (i : Nat) (hi : i < gs.length),
      rowsBefore gs i < (buildGo prev gs).length ∧
      ((buildGo prev gs).getD (rowsBefore gs i) []).getD 0 [] =
        (if i = 0 then (if some gs[0].category ≠ prev then gs[0].category else [])
         else if gs[i].category ≠ gs[i - 1].category then gs[i].category else []) := by
  induction gs with
  | nil =>
    intro prev i hi
    exact absurd hi (by simp)
  | cons g rest ih =>
    intro prev i hi
    cases i with
    | zero =>
      constructor
      · rw [rowsBefore_zero]
        simp [buildGo]
      · simp only [rowsBefore_zero, buildGo, List.cons_append, List.getD_cons_zero,
          titleRow_cell0, List.getElem_cons_zero, eq_self_iff_true, if_true]
    | succ j =>
      have hj : j < rest.length := by simpa using hi
      obtain ⟨ihlen, ihcell⟩ := ih g.category j hj
      have hgo : buildGo prev (g :: rest) =
          (titleRow (if some g.category ≠ prev then g.category else []) g ::
            ((g.headings.filter fun h => 2 ≤ h.level).map headingRow ++ [emptyRow])) ++
            buildGo (some g.category) rest := rfl
      have hblock : (titleRow (if some g.category ≠ prev then g.category else []) g ::
          ((g.headings.filter fun h => 2 ≤ h.level).map headingRow ++ [emptyRow])).length
          = 2 + (g.headings.filter fun h => 2 ≤ h.level).length := by
        simp [List.length_cons, List.length_append, List.length_map,
          List.length_singleton]
        omega
      constructor
      · rw [rowsBefore_succ, hgo, List.length_append, hblock]
        omega
      · rw [rowsBefore_succ, hgo,
          List.getD_append_right _ _ _ _ (by rw [hblock]; omega), hblock]
        have hidx : 2 + (g.headings.filter fun h => 2 ≤ h.level).length +
            rowsBefore rest j -
            (2 + (g.headings.filter fun h => 2 ≤ h.level).length) =
            rowsBefore rest j := by
          omega
        rw [hidx, ihcell]
        cases j with
        | zero =>
          simp [List.getElem_cons_zero, List.getElem_cons_succ, ne_eq,
            Option.some.injEq]
        | succ k =>
          simp [List.getElem_cons_succ, Nat.add_sub_cancel]

/-- C2: in the rows of `build_csv_rows`, the Category cell (column 0) of a
guide's title row equals the guide's category exactly when the guide is
first in the list or its category differs from the immediately preceding
guide's category, and is the empty string otherwise — the category is
shown once per contiguous group of guides sharing it. -/
theorem build_csv_rows_category_once_per_group (gs : List Guide) (i : Nat)
    (hi : i < gs.length) :
    rowsBefore gs i < (build_csv_rows gs).length ∧
    ((build_csv_rows gs).getD (rowsBefore gs i) []).getD 0 [] =
      if i = 0 ∨ gs[i].category ≠ gs[i - 1].category then gs[i].category else [] := by
  obtain ⟨hlen, hcell⟩ := buildGo_title_cell gs none i hi
  refine ⟨hlen, ?_⟩
  simp only [build_csv_rows]
  rw [hcell]
  by_cases h0 : i = 0
  · subst h0
    simp
  · simp [h0]

def gW6 : Guide := ⟨"CatX".data, "G1".data, "u1".data, []⟩

def gW7 : Guide := ⟨"CatX".data, "G2".data, "u2".data, []⟩

theorem build_csv_rows_category_once_per_group_witness :
    (1 < ([gW6, gW7] : List Guide).length) ∧
    ((build_csv_rows [gW6, gW7]).getD (rowsBefore [gW6, gW7] 1) []).getD 0 [] =
      (if 1 = 0 ∨ ([gW6, gW7] : List Guide)[1].category ≠
          ([gW6, gW7] : List Guide)[0].category
       then ([gW6, gW7] : List Guide)[1].category else []) :=
  ⟨by decide, (build_csv_rows_category_once_per_group [gW6, gW7] 1 (by decide)).2⟩
